import Mathlib

/-!
Shallow embedding of `tag-audit.py`, a Hugo front-matter tag/category audit
script, together with proofs about its collection, filtering and rendering
pipeline.  Python dictionaries (`dict`, `collections.Counter`,
`defaultdict(list)`) are modelled as insertion-ordered association lists,
and Python's stable `list.sort` / `sorted` as `List.mergeSort`.  File-system
reads and the external YAML parser are modelled as oracle fields carried by
each input file (`FileInput.read`, `FileInput.yaml`); everything downstream
of those two effects is embedded directly from the source.
-/

/-- ASCII whitespace recognised by Python's `str.strip`. -/
def isSpaceChar (c : Char) : Bool :=
  c.toNat = 32 || c.toNat = 9 || c.toNat = 10 || c.toNat = 13 || c.toNat = 11 || c.toNat = 12

/-- Strip leading and trailing whitespace from a list of characters. -/
def stripChars (l : List Char) : List Char :=
  ((l.dropWhile isSpaceChar).reverse.dropWhile isSpaceChar).reverse

/-- Lower-case one character, ASCII range (Python's `str.lower` per char). -/
def lowerChar (c : Char) : Char :=
  if 65 ≤ c.toNat ∧ c.toNat ≤ 90 then Char.ofNat (c.toNat + 32) else c

/-- Python's `value.strip()`. -/
def pyStrip (s : String) : String := String.mk (stripChars s.data)

/-- Python's `value.lower()`. -/
def pyLower (s : String) : String := String.mk (s.data.map lowerChar)

/-- Python's `value.strip().lower()`, the normalization used by `coerce_list`. -/
def pyNorm (s : String) : String := pyLower (pyStrip s)

/-- Python's `a <= b` on strings: lexicographic comparison by code point. -/
def lexLe : List Char → List Char → Bool
  | [], _ => true
  | _ :: _, [] => false
  | a :: as, b :: bs =>
    if a.toNat < b.toNat then true
    else if b.toNat < a.toNat then false
    else lexLe as bs

/-- String comparison `a <= b` as Python evaluates it. -/
def strLe (a b : String) : Bool := lexLe a.data b.data

/-- A YAML value as returned by `yaml.safe_load`, restricted to the shapes
the script distinguishes (scalars and lists; the script assumes the
top-level document is a mapping, handled separately by `FMap`). -/
inductive Val where
  | vNull : Val
  | vBool (b : Bool) : Val
  | vInt (n : Int) : Val
  | vStr (s : String) : Val
  | vList (l : List Val) : Val

/-- Python truthiness `bool(value)` for the modelled YAML values. -/
def truthy : Val → Bool
  | .vNull => false
  | .vBool b => b
  | .vInt n => n != 0
  | .vStr s => s != ""
  | .vList l => !l.isEmpty

/-- The body of the `for v in value` loop of `coerce_list` (lines 154-158):
a string element contributes its stripped, lowered form when non-empty;
every other element contributes nothing. -/
def coerce_elem : Val → Option String
  | .vStr s =>
    let t := pyNorm s
    if t = "" then none else some t
  | _ => none

/-- Embedding of `coerce_list` (tag-audit.py lines 146-160). -/
def coerce_list (value : Val) : List String :=
  if !truthy value then []
  else
    match value with
    | .vStr s =>
      let t := pyNorm s
      if t = "" then [] else [t]
    | .vList l => l.filterMap coerce_elem
    | _ => []

/-- A parsed front-matter document: a Python dict in insertion order. -/
structure FMap where
  entries : List (String × Val)

/-- Python's `data.get(key, default)` (first matching key wins). -/
def FMap.getD (m : FMap) (k : String) (d : Val) : Val :=
  match m.entries.find? (fun kv => kv.1 = k) with
  | some kv => kv.2
  | none => d

/-- Python's `data.get(key)` (default `None`). -/
def FMap.get (m : FMap) (k : String) : Val := m.getD k .vNull

/-- One candidate file as the scan sees it.  `read` models the outcome of
`open(path).readlines()` (`Except.error` is an I/O exception); `yaml`
models the outcome of `yaml.safe_load` applied to the front-matter block
(`Except.error` is a parse exception, `Except.ok none` a falsy result such
as `None` or an empty mapping, `Except.ok (some m)` a parsed mapping). -/
structure FileInput where
  path : String
  read : Except String (List String)
  yaml : Except String (Option FMap)

/-- Embedding of `is_front_matter_yaml` (lines 136-143): `(start, end)`
line indices of the YAML front matter if present, else `(-1, -1)`. -/
def is_front_matter_yaml (lines : List String) : Int × Int :=
  match lines with
  | [] => (-1, -1)
  | first :: rest =>
    if pyStrip first ≠ "---" then (-1, -1)
    else
      match rest.findIdx? (fun l => pyStrip l = "---") with
      | some i => (0, (i : Int) + 1)
      | none => (-1, -1)

/-- Embedding of `read_front_matter` (lines 163-181): the parsed mapping
(`none` on a read or parse failure) paired with the warnings the function
prints to stderr. -/
def read_front_matter (f : FileInput) : Option FMap × List String :=
  match f.read with
  | .error e => (none, ["Error reading " ++ f.path ++ ": " ++ e])
  | .ok lines =>
    if (is_front_matter_yaml lines).1 = -1 then (some ⟨[]⟩, [])
    else
      match f.yaml with
      | .error e => (none, ["Error parsing YAML in " ++ f.path ++ ": " ++ e])
      | .ok m => (some (m.getD ⟨[]⟩), [])

/-- A `collections.Counter` in insertion order. -/
abbrev Counter := List (String × Nat)

/-- Add one occurrence of `k` to a counter (one step of `Counter.update`). -/
def bump (c : Counter) (k : String) : Counter :=
  match c with
  | [] => [(k, 1)]
  | kv :: rest => if kv.1 = k then (kv.1, kv.2 + 1) :: rest else kv :: bump rest k

/-- `counter.update(ks)`: add every element of `ks`, with multiplicity. -/
def counterUpdate (c : Counter) (ks : List String) : Counter := ks.foldl bump c

/-- Look a name up in a counter; missing names count 0. -/
def cnt (c : Counter) (n : String) : Nat :=
  match c.find? (fun kv => kv.1 = n) with
  | some kv => kv.2
  | none => 0

/-- A `defaultdict(list)` from names to file paths, in insertion order. -/
abbrev FilesMap := List (String × List String)

/-- `mapping[k].append(path)` on a `defaultdict(list)`. -/
def appendFile (m : FilesMap) (k path : String) : FilesMap :=
  match m with
  | [] => [(k, [path])]
  | kv :: rest =>
    if kv.1 = k then (kv.1, kv.2 ++ [path]) :: rest else kv :: appendFile rest k path

/-- Append `path` under every element of `ks`, in order (the `for t in tags`
loop body of `collect`). -/
def mapUpdate (m : FilesMap) (ks : List String) (path : String) : FilesMap :=
  ks.foldl (fun acc k => appendFile acc k path) m

/-- `mapping.get(k, [])`. -/
def lookupFiles (m : FilesMap) (n : String) : List String :=
  match m.find? (fun kv => kv.1 = n) with
  | some kv => kv.2
  | none => []

/-- The per-file record `{"tags": ..., "categories": ...}`. -/
structure Usage where
  tags : List String
  categories : List String
  deriving DecidableEq

/-- The `file_usage` dict from paths to usage records, in insertion order. -/
abbrev UsageMap := List (String × Usage)

/-- `file_usage[path] = u`: dict assignment, replace in place or append. -/
def setUsage (m : UsageMap) (path : String) (u : Usage) : UsageMap :=
  match m with
  | [] => [(path, u)]
  | kv :: rest => if kv.1 = path then (kv.1, u) :: rest else kv :: setUsage rest path u

/-- Look a path up in the `file_usage` dict. -/
def lookupUsage (m : UsageMap) (p : String) : Option Usage :=
  match m.find? (fun kv => kv.1 = p) with
  | some kv => some kv.2
  | none => none

/-- The five accumulators built by `collect`, plus the warnings printed to
stderr along the way. -/
structure CollectResult where
  tags_counter : Counter
  cats_counter : Counter
  file_usage : UsageMap
  tag_to_files : FilesMap
  cat_to_files : FilesMap
  warnings : List String
  deriving DecidableEq

/-- The empty accumulators `collect` starts from. -/
def initResult : CollectResult := ⟨[], [], [], [], [], []⟩

/-- The body of the `for path in paths` loop of `collect` (lines 209-229)
applied to one file. -/
def processFile (ignore_drafts : Bool) (st : CollectResult) (f : FileInput) : CollectResult :=
  match read_front_matter f with
  | (none, ws) => { st with warnings := st.warnings ++ ws }
  | (some data, ws) =>
    let st := { st with warnings := st.warnings ++ ws }
    if data.entries.isEmpty then st
    else if ignore_drafts && truthy (data.getD "draft" (.vBool false)) then st
    else
      let tags := coerce_list (data.get "tags")
      let cats := coerce_list (data.get "categories")
      { st with
        tags_counter := counterUpdate st.tags_counter tags
        cats_counter := counterUpdate st.cats_counter cats
        file_usage := setUsage st.file_usage f.path ⟨tags, cats⟩
        tag_to_files := mapUpdate st.tag_to_files tags f.path
        cat_to_files := mapUpdate st.cat_to_files cats f.path }

/-- Embedding of `collect` (lines 191-231) over an explicit list of files
(the path iteration order produced by `iter_paths` or `--file`). -/
def collect (ignore_drafts : Bool) (files : List FileInput) : CollectResult :=
  files.foldl (processFile ignore_drafts) initResult

/-- Sort key used for mode `count`: descending count, ties by ascending
name (the Python key `(-kv[1], kv[0])`). -/
def countLe (a b : String × Nat) : Bool :=
  decide (b.2 < a.2) || (decide (a.2 = b.2) && strLe a.1 b.1)

/-- Sort key used for mode `alpha`: ascending name (the key `kv[0]`). -/
def alphaLe (a b : String × Nat) : Bool := strLe a.1 b.1

/-- Embedding of `sort_and_filter` (lines 234-242). -/
def sort_and_filter (counter : Counter) (mode : String) (min_count : Int) (top : Int) :
    List (String × Nat) :=
  let items := counter.filter (fun kv => decide (min_count ≤ (kv.2 : Int)))
  let sorted :=
    if mode = "alpha" then items.insertionSort (fun a b => alphaLe a b = true)
    else items.insertionSort (fun a b => countLe a b = true)
  if 0 < top then sorted.take top.toNat else sorted

/-- The singleton rows built in `main` (lines 386-389): entries of the
inverse mapping with exactly one associated path, as `(name, 1)` rows
sorted by name. -/
def singleton_rows (m : FilesMap) : List (String × Nat) :=
  ((m.filter (fun kv => kv.2.length == 1)).map (fun kv => (kv.1, 1))).insertionSort
    (fun a b => alphaLe a b = true)

/-- Python's `sorted(paths)`. -/
def sortedStrings (l : List String) : List String :=
  l.insertionSort (fun a b => strLe a b = true)

/-- Embedding of `ordered_keys_from` in `main` (lines 412-414). -/
def ordered_keys_from (counter : Counter) (mode : String) (min_count : Int) (top : Int) :
    List String :=
  (sort_and_filter counter mode min_count top).map Prod.fst

/-- The association rendered by `render_mapping_json` (lines 353-355): each
ordered key paired with its sorted file list.  The text, markdown and csv
mapping renderers (lines 312-350) iterate the same `ordered_keys` the same
way; the JSON payload is the structured representative of all four. -/
def render_mapping_json (ordered_keys : List String) (mapping : FilesMap) :
    List (String × List String) :=
  ordered_keys.map fun k => (k, sortedStrings (lookupFiles mapping k))

/-- The files-by-tag view assembled in `main` (lines 416-427). -/
def by_tag_view (mode : String) (min_count : Int) (top : Int) (res : CollectResult) :
    List (String × List String) :=
  render_mapping_json (ordered_keys_from res.tags_counter mode min_count top) res.tag_to_files

/-- The files-by-category view assembled in `main` (lines 429-440). -/
def by_cat_view (mode : String) (min_count : Int) (top : Int) (res : CollectResult) :
    List (String × List String) :=
  render_mapping_json (ordered_keys_from res.cats_counter mode min_count top) res.cat_to_files

/-- The mapping a file's front matter parses to, if any (first component of
`read_front_matter`). -/
def fileData (f : FileInput) : Option FMap := (read_front_matter f).1

/-- Whether `collect` aggregates this file: it was read and parsed, its
front-matter mapping is non-empty, and it is not excluded as a draft. -/
def includedFile (ignore_drafts : Bool) (f : FileInput) : Bool :=
  match fileData f with
  | none => false
  | some data =>
    !data.entries.isEmpty &&
      !(ignore_drafts && truthy (data.getD "draft" (.vBool false)))

/-- The normalized tag list of a file (empty when the file is not parsed). -/
def fileTags (f : FileInput) : List String :=
  match fileData f with
  | some data => coerce_list (data.get "tags")
  | none => []

/-- The normalized category list of a file (empty when not parsed). -/
def fileCats (f : FileInput) : List String :=
  match fileData f with
  | some data => coerce_list (data.get "categories")
  | none => []

/-- Specification-side count: occurrences of `n`, with multiplicity, across
the normalized tag lists of the aggregated files. -/
def specTagCount (ignore_drafts : Bool) (files : List FileInput) (n : String) : Nat :=
  (((files.filter (includedFile ignore_drafts)).map fileTags).flatten).count n

/-- Specification-side count for categories, as `specTagCount`. -/
def specCatCount (ignore_drafts : Bool) (files : List FileInput) (n : String) : Nat :=
  (((files.filter (includedFile ignore_drafts)).map fileCats).flatten).count n

/-- Specification-side reading of a singleton (spec glossary): the number of
aggregated content items whose normalized tag list contains the name. -/
def specUsedByFiles (ignore_drafts : Bool) (files : List FileInput) (n : String) : Nat :=
  ((files.filter (includedFile ignore_drafts)).filter fun f => (fileTags f).contains n).length

/-- Whether a YAML value is a string. -/
def Val.isStr : Val → Bool
  | .vStr _ => true
  | _ => false

/-- Whether a YAML value is a list. -/
def Val.isList : Val → Bool
  | .vList _ => true
  | _ => false

/-- Equality of the five aggregation components of two collection states,
ignoring the warning log. -/
def sameCore (a b : CollectResult) : Prop :=
  a.tags_counter = b.tags_counter ∧ a.cats_counter = b.cats_counter ∧
    a.file_usage = b.file_usage ∧ a.tag_to_files = b.tag_to_files ∧
    a.cat_to_files = b.cat_to_files

/-- Whether `read_front_matter` succeeds on the file (no read error and no
YAML parse error). -/
def parsedOk (f : FileInput) : Bool := ((read_front_matter f).1).isSome

/-- A file whose front matter lists the tag `dup` twice (used by the
duplicate-tag counterexamples). -/
def exDupFile : FileInput :=
  ⟨"a.md", .ok ["---", "tags: [dup, dup]", "---"],
   .ok (some ⟨[("tags", .vList [.vStr "dup", .vStr "dup"])]⟩)⟩

/-- A file whose front-matter markers are present but whose block parses to
an empty document. -/
def exEmptyBlockFile : FileInput :=
  ⟨"e.md", .ok ["---", "   ", "---", "body"], .ok none⟩

/-- A well-formed file with two tags and one category. -/
def exPlainFile : FileInput :=
  ⟨"p.md", .ok ["---", "tags: [go, rust]", "---"],
   .ok (some ⟨[("tags", .vList [.vStr "go", .vStr "rust"]),
               ("categories", .vStr "backend")]⟩)⟩

/-- A file whose read fails with a permission error. -/
def exBadReadFile : FileInput :=
  ⟨"bad.md", .error "Permission denied", .ok none⟩

/-! ### Character and string normalization lemmas -/

theorem toNat_ofNat_valid (n : Nat) (h : n.isValidChar) : (Char.ofNat n).toNat = n := by
  simp [Char.ofNat, h]
  simp [Char.ofNatAux, Char.toNat, UInt32.toNat, UInt32.ofNatCore]

theorem lowerChar_toNat (c : Char) :
    (lowerChar c).toNat = if 65 ≤ c.toNat ∧ c.toNat ≤ 90 then c.toNat + 32 else c.toNat := by
  unfold lowerChar
  split_ifs with h
  · exact toNat_ofNat_valid _ (Or.inl (by omega))
  · rfl

theorem lowerChar_eq_self (c : Char) (h : ¬(65 ≤ c.toNat ∧ c.toNat ≤ 90)) :
    lowerChar c = c := by
  unfold lowerChar
  exact if_neg h

theorem lowerChar_idem (c : Char) : lowerChar (lowerChar c) = lowerChar c := by
  by_cases h : 65 ≤ c.toNat ∧ c.toNat ≤ 90
  · apply lowerChar_eq_self
    rw [lowerChar_toNat, if_pos h]
    omega
  · rw [lowerChar_eq_self c h, lowerChar_eq_self c h]

theorem isSpace_lowerChar (c : Char) : isSpaceChar (lowerChar c) = isSpaceChar c := by
  unfold isSpaceChar
  rw [lowerChar_toNat]
  split_ifs with h
  · rw [Bool.eq_iff_iff]
    simp only [Bool.or_eq_true, decide_eq_true_eq]
    omega
  · rfl

theorem dropWhile_dropWhile (p : Char → Bool) (l : List Char) :
    (l.dropWhile p).dropWhile p = l.dropWhile p := by
  induction l with
  | nil => rfl
  | cons a t ih =>
    by_cases h : p a
    · simp [List.dropWhile_cons, h, ih]
    · simp [List.dropWhile_cons, h]

theorem head_dropWhile_false (p : Char → Bool) (l : List Char) (a : Char)
    (h : (l.dropWhile p).head? = some a) : p a = false := by
  induction l with
  | nil => simp [List.dropWhile] at h
  | cons b t ih =>
    by_cases hb : p b
    · rw [List.dropWhile_cons, if_pos hb] at h
      exact ih h
    · rw [List.dropWhile_cons, if_neg hb] at h
      simp only [List.head?_cons, Option.some.injEq] at h
      subst h
      simp [hb]

theorem dropWhile_eq_self_of_head (p : Char → Bool) (l : List Char)
    (h : ∀ a, l.head? = some a → p a = false) : l.dropWhile p = l := by
  cases l with
  | nil => rfl
  | cons a t =>
    rw [List.dropWhile_cons, if_neg]
    simp [h a rfl]

theorem getLast?_of_suffix {s t : List Char} (h : s <:+ t) (hs : s ≠ []) :
    s.getLast? = t.getLast? := by
  obtain ⟨u, rfl⟩ := h
  rw [List.getLast?_append]
  obtain ⟨x, hx⟩ := Option.isSome_iff_exists.mp (List.getLast?_isSome.mpr hs)
  rw [hx]
  rfl

theorem stripChars_idem (l : List Char) : stripChars (stripChars l) = stripChars l := by
  set p := isSpaceChar with hp
  set A := l.dropWhile p with hA
  set B := A.reverse.dropWhile p with hB
  have hstrip : stripChars l = B.reverse := rfl
  have step1 : B.reverse.dropWhile p = B.reverse := by
    by_cases hBnil : B = []
    · simp [hBnil]
    · apply dropWhile_eq_self_of_head
      intro a ha
      have hA_ne : A ≠ [] := by
        intro hAnil
        apply hBnil
        rw [hB, hAnil]
        rfl
      have h1 : B.reverse.head? = B.getLast? := by rw [List.head?_reverse]
      have h2 : B.getLast? = A.reverse.getLast? :=
        getLast?_of_suffix (hB ▸ List.dropWhile_suffix p) hBnil
      have h3 : A.reverse.getLast? = A.head? := List.getLast?_reverse A
      rw [h1, h2, h3] at ha
      exact head_dropWhile_false p l a (hA ▸ ha)
  rw [hstrip]
  show ((B.reverse.dropWhile p).reverse.dropWhile p).reverse = B.reverse
  rw [step1, List.reverse_reverse, hB, dropWhile_dropWhile]

theorem stripChars_map_lower (l : List Char) :
    stripChars (l.map lowerChar) = (stripChars l).map lowerChar := by
  have hdw : ∀ m : List Char,
      List.dropWhile isSpaceChar (List.map lowerChar m)
        = List.map lowerChar (List.dropWhile isSpaceChar m) := by
    intro m
    rw [List.dropWhile_map]
    have hfun : (isSpaceChar ∘ lowerChar) = isSpaceChar := by
      funext c
      exact isSpace_lowerChar c
    rw [hfun]
  have hrev : ∀ m : List Char,
      (List.map lowerChar m).reverse = List.map lowerChar m.reverse := by
    intro m
    rw [List.map_reverse]
  unfold stripChars
  calc (((l.map lowerChar).dropWhile isSpaceChar).reverse.dropWhile isSpaceChar).reverse
      = (((l.dropWhile isSpaceChar).map lowerChar).reverse.dropWhile isSpaceChar).reverse := by
        rw [hdw]
    _ = (((l.dropWhile isSpaceChar).reverse.map lowerChar).dropWhile isSpaceChar).reverse := by
        rw [hrev]
    _ = (((l.dropWhile isSpaceChar).reverse.dropWhile isSpaceChar).map lowerChar).reverse := by
        rw [hdw]
    _ = ((l.dropWhile isSpaceChar).reverse.dropWhile isSpaceChar).reverse.map lowerChar := by
        rw [hrev]

theorem map_lower_idem (l : List Char) :
    (l.map lowerChar).map lowerChar = l.map lowerChar := by
  rw [List.map_map]
  exact List.map_congr_left fun a _ => lowerChar_idem a

theorem string_eq_of_data {a b : String} (h : a.data = b.data) : a = b := by
  cases a
  cases b
  exact congrArg String.mk h

theorem pyNorm_data (s : String) : (pyNorm s).data = (stripChars s.data).map lowerChar := rfl

theorem pyNorm_idem (s : String) : pyNorm (pyNorm s) = pyNorm s := by
  apply string_eq_of_data
  simp only [pyNorm_data]
  rw [stripChars_map_lower, stripChars_idem, map_lower_idem]

/-! ### Lemmas about `coerce_list` -/

theorem coerce_elem_vStr (s : String) :
    coerce_elem (Val.vStr s) = if pyNorm s = "" then none else some (pyNorm s) := rfl

theorem coerce_elem_not_str {v : Val} (h : v.isStr = false) : coerce_elem v = none := by
  cases v <;> simp [Val.isStr] at h ⊢ <;> rfl

theorem mem_coerce_list {v : Val} {t : String} (h : t ∈ coerce_list v) :
    pyNorm t = t ∧ t ≠ "" := by
  cases v with
  | vNull => simp [coerce_list, truthy] at h
  | vBool b => cases b <;> simp [coerce_list, truthy] at h
  | vInt n =>
    by_cases hn : n = 0
    · subst hn
      simp [coerce_list, truthy] at h
    · simp [coerce_list, truthy, hn] at h
  | vStr s =>
    by_cases hs : s = ""
    · subst hs
      simp [coerce_list, truthy] at h
    · by_cases hp : pyNorm s = ""
      · simp [coerce_list, truthy, hs, hp] at h
      · simp [coerce_list, truthy, hs, hp] at h
        subst h
        exact ⟨pyNorm_idem s, hp⟩
  | vList l =>
    by_cases hl : l.isEmpty
    · simp [coerce_list, truthy, hl] at h
    · simp only [coerce_list, truthy, hl, Bool.not_false, Bool.not_true,
        Bool.false_eq_true, if_false] at h
      rw [List.mem_filterMap] at h
      obtain ⟨a, _, hfa⟩ := h
      cases a with
      | vStr s =>
        by_cases hp : pyNorm s = ""
        · simp [coerce_elem, hp] at hfa
        · simp [coerce_elem, hp] at hfa
          subst hfa
          exact ⟨pyNorm_idem s, hp⟩
      | vNull => simp [coerce_elem] at hfa
      | vBool b => simp [coerce_elem] at hfa
      | vInt n => simp [coerce_elem] at hfa
      | vList l2 => simp [coerce_elem] at hfa

theorem filterMap_id_of_mem {α : Type} {f : α → Option α} {l : List α}
    (h : ∀ a ∈ l, f a = some a) : l.filterMap f = l := by
  induction l with
  | nil => rfl
  | cons a t ih =>
    rw [List.filterMap_cons, h a (List.mem_cons_self a t)]
    rw [ih fun x hx => h x (List.mem_cons_of_mem a hx)]

theorem coerce_list_of_normed (out : List String)
    (h : ∀ x ∈ out, pyNorm x = x ∧ x ≠ "") :
    coerce_list (Val.vList (out.map Val.vStr)) = out := by
  cases out with
  | nil => rfl
  | cons t ts =>
    simp only [coerce_list]
    rw [if_neg (by simp [truthy])]
    rw [List.filterMap_map]
    apply filterMap_id_of_mem
    intro x hx
    obtain ⟨hnorm, hne⟩ := h x hx
    simp [Function.comp, coerce_elem, hnorm, hne]

theorem coerce_list_idem (v : Val) :
    coerce_list (Val.vList ((coerce_list v).map Val.vStr)) = coerce_list v :=
  coerce_list_of_normed (coerce_list v) fun _ hx => mem_coerce_list hx

/-! ### Order properties of the sort keys -/

theorem lexLe_total (a b : List Char) : lexLe a b = true ∨ lexLe b a = true := by
  induction a generalizing b with
  | nil => left; rfl
  | cons x xs ih =>
    cases b with
    | nil => right; rfl
    | cons y ys =>
      rcases Nat.lt_trichotomy x.toNat y.toNat with h | h | h
      · left
        simp [lexLe, h]
      · have h1 : ¬ x.toNat < y.toNat := by omega
        have h2 : ¬ y.toNat < x.toNat := by omega
        rcases ih ys with hy | hy
        · left
          simp [lexLe, h1, h2, hy]
        · right
          simp [lexLe, h1, h2, hy]
      · right
        simp [lexLe, h]

theorem lexLe_trans {a b c : List Char} (h1 : lexLe a b = true) (h2 : lexLe b c = true) :
    lexLe a c = true := by
  induction a generalizing b c with
  | nil => rfl
  | cons x xs ih =>
    cases b with
    | nil => simp [lexLe] at h1
    | cons y ys =>
      cases c with
      | nil => simp [lexLe] at h2
      | cons z zs =>
        simp only [lexLe] at h1 h2 ⊢
        rcases Nat.lt_trichotomy x.toNat z.toNat with hxz | hxz | hxz
        · rw [if_pos hxz]
        · rw [if_neg (by omega), if_neg (by omega)]
          by_cases hxy : x.toNat < y.toNat
          · rw [if_neg (by omega), if_pos (by omega)] at h2
            exact absurd h2 (by simp)
          · by_cases hyx : y.toNat < x.toNat
            · rw [if_neg hxy, if_pos hyx] at h1
              exact absurd h1 (by simp)
            · rw [if_neg hxy, if_neg hyx] at h1
              rw [if_neg (by omega), if_neg (by omega)] at h2
              exact ih h1 h2
        · by_cases hxy : x.toNat < y.toNat
          · rw [if_neg (by omega), if_pos (by omega)] at h2
            exact absurd h2 (by simp)
          · by_cases hyx : y.toNat < x.toNat
            · rw [if_neg hxy, if_pos hyx] at h1
              exact absurd h1 (by simp)
            · rw [if_neg (by omega), if_pos (by omega)] at h2
              exact absurd h2 (by simp)

theorem strLe_total (a b : String) : strLe a b = true ∨ strLe b a = true :=
  lexLe_total a.data b.data

theorem strLe_trans {a b c : String} (h1 : strLe a b = true) (h2 : strLe b c = true) :
    strLe a c = true :=
  lexLe_trans h1 h2

theorem alphaLe_trans (a b c : String × Nat) (h1 : alphaLe a b = true)
    (h2 : alphaLe b c = true) : alphaLe a c = true :=
  strLe_trans h1 h2

theorem alphaLe_total (a b : String × Nat) : (alphaLe a b || alphaLe b a) = true := by
  rcases strLe_total a.1 b.1 with h | h <;> simp [alphaLe, h]

theorem countLe_trans (a b c : String × Nat) (h1 : countLe a b = true)
    (h2 : countLe b c = true) : countLe a c = true := by
  simp only [countLe, Bool.or_eq_true, Bool.and_eq_true, decide_eq_true_eq] at h1 h2 ⊢
  rcases h1 with h1 | ⟨h1e, h1s⟩
  · rcases h2 with h2 | ⟨h2e, h2s⟩
    · left; omega
    · left; omega
  · rcases h2 with h2 | ⟨h2e, h2s⟩
    · left; omega
    · right
      exact ⟨by omega, strLe_trans h1s h2s⟩

theorem countLe_total (a b : String × Nat) : (countLe a b || countLe b a) = true := by
  simp only [countLe, Bool.or_eq_true, Bool.and_eq_true, decide_eq_true_eq]
  rcases Nat.lt_trichotomy a.2 b.2 with h | h | h
  · right; left; exact h
  · rcases strLe_total a.1 b.1 with hs | hs
    · left; right; exact ⟨h, hs⟩
    · right; right; exact ⟨h.symm, hs⟩
  · left; left; exact h

/-! ### Pointwise behaviour of the accumulator updates -/

theorem cnt_nil (n : String) : cnt [] n = 0 := rfl

theorem cnt_cons (kv : String × Nat) (rest : Counter) (n : String) :
    cnt (kv :: rest) n = if kv.1 = n then kv.2 else cnt rest n := by
  unfold cnt
  by_cases h : kv.1 = n
  · rw [List.find?_cons_of_pos _ (by simp [h]), if_pos h]
  · rw [List.find?_cons_of_neg _ (by simp [h]), if_neg h]

theorem lookupFiles_nil (n : String) : lookupFiles [] n = [] := rfl

theorem lookupFiles_cons (kv : String × List String) (rest : FilesMap) (n : String) :
    lookupFiles (kv :: rest) n = if kv.1 = n then kv.2 else lookupFiles rest n := by
  unfold lookupFiles
  by_cases h : kv.1 = n
  · rw [List.find?_cons_of_pos _ (by simp [h]), if_pos h]
  · rw [List.find?_cons_of_neg _ (by simp [h]), if_neg h]

theorem lookupUsage_nil (p : String) : lookupUsage [] p = none := rfl

theorem lookupUsage_cons (kv : String × Usage) (rest : UsageMap) (p : String) :
    lookupUsage (kv :: rest) p = if kv.1 = p then some kv.2 else lookupUsage rest p := by
  unfold lookupUsage
  by_cases h : kv.1 = p
  · rw [List.find?_cons_of_pos _ (by simp [h]), if_pos h]
  · rw [List.find?_cons_of_neg _ (by simp [h]), if_neg h]

theorem cnt_bump (c : Counter) (k n : String) :
    cnt (bump c k) n = cnt c n + if n = k then 1 else 0 := by
  induction c with
  | nil =>
    show cnt [(k, 1)] n = cnt [] n + if n = k then 1 else 0
    rw [cnt_cons, cnt_nil]
    by_cases h : n = k
    · simp [h]
    · simp [h, Ne.symm h]
  | cons kv rest ih =>
    show cnt (if kv.1 = k then (kv.1, kv.2 + 1) :: rest else kv :: bump rest k) n = _
    by_cases hk : kv.1 = k
    · rw [if_pos hk, cnt_cons, cnt_cons]
      by_cases hn : kv.1 = n
      · have hnk : n = k := hn ▸ hk
        simp [hn, hnk]
      · have hnk : ¬ n = k := fun h => hn (h ▸ hk)
        simp [hn, hnk]
    · rw [if_neg hk, cnt_cons, cnt_cons]
      by_cases hn : kv.1 = n
      · have hnk : ¬ n = k := fun h => hk (h ▸ hn)
        simp [hn, hnk]
      · simp [hn, ih]

theorem cnt_counterUpdate (c : Counter) (ks : List String) (n : String) :
    cnt (counterUpdate c ks) n = cnt c n + ks.count n := by
  induction ks generalizing c with
  | nil => simp [counterUpdate]
  | cons k kt ih =>
    show cnt (counterUpdate (bump c k) kt) n = _
    rw [ih (bump c k), cnt_bump, List.count_cons]
    by_cases h : n = k
    · simp only [h, if_pos rfl, beq_self_eq_true, if_pos]
      omega
    · have hb : ¬ (k == n) = true := by simp [Ne.symm h]
      simp only [h, if_neg, hb]
      simp

theorem lookupFiles_appendFile (m : FilesMap) (k p n : String) :
    lookupFiles (appendFile m k p) n = lookupFiles m n ++ if n = k then [p] else [] := by
  induction m with
  | nil =>
    show lookupFiles [(k, [p])] n = lookupFiles [] n ++ _
    rw [lookupFiles_cons, lookupFiles_nil]
    by_cases h : n = k
    · simp [h]
    · simp [h, Ne.symm h]
  | cons kv rest ih =>
    show lookupFiles (if kv.1 = k then (kv.1, kv.2 ++ [p]) :: rest else kv :: appendFile rest k p) n
        = _
    by_cases hk : kv.1 = k
    · rw [if_pos hk, lookupFiles_cons, lookupFiles_cons]
      by_cases hn : kv.1 = n
      · have hnk : n = k := hn ▸ hk
        simp [hn, hnk]
      · have hnk : ¬ n = k := fun h => hn (h ▸ hk)
        simp [hn, hnk]
    · rw [if_neg hk, lookupFiles_cons, lookupFiles_cons]
      by_cases hn : kv.1 = n
      · have hnk : ¬ n = k := fun h => hk (h ▸ hn)
        simp [hn, hnk]
      · simp [hn, ih]

theorem lookupFiles_mapUpdate (m : FilesMap) (ks : List String) (p n : String) :
    lookupFiles (mapUpdate m ks p) n
      = lookupFiles m n ++ List.replicate (ks.count n) p := by
  induction ks generalizing m with
  | nil => simp [mapUpdate]
  | cons k kt ih =>
    show lookupFiles (mapUpdate (appendFile m k p) kt p) n = _
    rw [ih (appendFile m k p), lookupFiles_appendFile, List.count_cons]
    by_cases h : n = k
    · subst h
      simp [List.replicate_succ]
    · have hb : ¬ (k == n) = true := by simp [Ne.symm h]
      simp [h, hb]

theorem lookupUsage_setUsage_self (m : UsageMap) (p : String) (u : Usage) :
    lookupUsage (setUsage m p u) p = some u := by
  induction m with
  | nil =>
    show lookupUsage [(p, u)] p = some u
    rw [lookupUsage_cons]
    simp
  | cons kv rest ih =>
    show lookupUsage (if kv.1 = p then (kv.1, u) :: rest else kv :: setUsage rest p u) p = some u
    by_cases hp : kv.1 = p
    · rw [if_pos hp, lookupUsage_cons, if_pos hp]
    · rw [if_neg hp, lookupUsage_cons, if_neg hp]
      exact ih

theorem lookupUsage_setUsage_ne (m : UsageMap) (p q : String) (u : Usage) (h : q ≠ p) :
    lookupUsage (setUsage m p u) q = lookupUsage m q := by
  induction m with
  | nil =>
    show lookupUsage [(p, u)] q = lookupUsage [] q
    rw [lookupUsage_cons, lookupUsage_nil]
    simp [Ne.symm h]
  | cons kv rest ih =>
    show lookupUsage (if kv.1 = p then (kv.1, u) :: rest else kv :: setUsage rest p u) q = _
    by_cases hp : kv.1 = p
    · have hq : ¬ kv.1 = q := fun hc => h (hc ▸ hp ▸ rfl)
      rw [if_pos hp, lookupUsage_cons, if_neg hq, lookupUsage_cons, if_neg hq]
    · rw [if_neg hp, lookupUsage_cons, lookupUsage_cons]
      by_cases hq : kv.1 = q
      · rw [if_pos hq, if_pos hq]
      · rw [if_neg hq, if_neg hq]
        exact ih

/-! ### Behaviour of `read_front_matter` and one loop step of `collect` -/

theorem read_front_matter_readErr (p e : String) (y : Except String (Option FMap)) :
    read_front_matter ⟨p, .error e, y⟩ = (none, ["Error reading " ++ p ++ ": " ++ e]) := rfl

theorem read_front_matter_no_marker (p : String) (lines : List String)
    (y : Except String (Option FMap)) (h : (is_front_matter_yaml lines).1 = -1) :
    read_front_matter ⟨p, .ok lines, y⟩ = (some ⟨[]⟩, []) := by
  unfold read_front_matter
  simp [h]

theorem read_front_matter_parseErr (p : String) (lines : List String) (e : String)
    (h : ¬ (is_front_matter_yaml lines).1 = -1) :
    read_front_matter ⟨p, .ok lines, .error e⟩
      = (none, ["Error parsing YAML in " ++ p ++ ": " ++ e]) := by
  unfold read_front_matter
  simp [h]

theorem read_front_matter_parsed (p : String) (lines : List String) (m : Option FMap)
    (h : ¬ (is_front_matter_yaml lines).1 = -1) :
    read_front_matter ⟨p, .ok lines, .ok m⟩ = (some (m.getD ⟨[]⟩), []) := by
  unfold read_front_matter
  simp [h]

theorem read_front_matter_some_silent (f : FileInput) (d : FMap)
    (h : (read_front_matter f).1 = some d) : (read_front_matter f).2 = [] := by
  obtain ⟨p, r, y⟩ := f
  cases r with
  | error e =>
    rw [read_front_matter_readErr] at h
    exact absurd h (by simp)
  | ok lines =>
    by_cases hm : (is_front_matter_yaml lines).1 = -1
    · rw [read_front_matter_no_marker p lines y hm]
    · cases y with
      | error e =>
        rw [read_front_matter_parseErr p lines e hm] at h
        exact absurd h (by simp)
      | ok m => rw [read_front_matter_parsed p lines m hm]

theorem read_front_matter_none_warns (f : FileInput)
    (h : (read_front_matter f).1 = none) : (read_front_matter f).2 ≠ [] := by
  obtain ⟨p, r, y⟩ := f
  cases r with
  | error e =>
    rw [read_front_matter_readErr]
    simp
  | ok lines =>
    by_cases hm : (is_front_matter_yaml lines).1 = -1
    · rw [read_front_matter_no_marker p lines y hm] at h
      exact absurd h (by simp)
    · cases y with
      | error e =>
        rw [read_front_matter_parseErr p lines e hm]
        simp
      | ok m =>
        rw [read_front_matter_parsed p lines m hm] at h
        exact absurd h (by simp)

theorem includedFile_of_not_parsed {f : FileInput} (h : (read_front_matter f).1 = none)
    (ig : Bool) : includedFile ig f = false := by
  unfold includedFile fileData
  rw [h]

theorem processFile_not_included (ig : Bool) (st : CollectResult) (f : FileInput)
    (h : includedFile ig f = false) :
    processFile ig st f = { st with warnings := st.warnings ++ (read_front_matter f).2 } := by
  unfold includedFile fileData at h
  unfold processFile
  rcases hrf : read_front_matter f with ⟨od, ws⟩
  rw [hrf] at h
  cases od with
  | none => rfl
  | some data =>
    by_cases he : data.entries.isEmpty
    · simp [he]
    · simp only [he, Bool.not_false, Bool.true_and, Bool.not_eq_false'] at h
      simp [he, h]

theorem processFile_included (ig : Bool) (st : CollectResult) (f : FileInput)
    (h : includedFile ig f = true) :
    processFile ig st f =
      { tags_counter := counterUpdate st.tags_counter (fileTags f)
        cats_counter := counterUpdate st.cats_counter (fileCats f)
        file_usage := setUsage st.file_usage f.path ⟨fileTags f, fileCats f⟩
        tag_to_files := mapUpdate st.tag_to_files (fileTags f) f.path
        cat_to_files := mapUpdate st.cat_to_files (fileCats f) f.path
        warnings := st.warnings ++ (read_front_matter f).2 } := by
  unfold includedFile fileData at h
  unfold fileTags fileCats fileData
  unfold processFile
  rcases hrf : read_front_matter f with ⟨od, ws⟩
  rw [hrf] at h
  cases od with
  | none => simp at h
  | some data =>
    simp only [Bool.and_eq_true, Bool.not_eq_true'] at h
    obtain ⟨h1, h2⟩ := h
    simp [h1, h2]

theorem processFile_warnings (ig : Bool) (st : CollectResult) (f : FileInput) :
    (processFile ig st f).warnings = st.warnings ++ (read_front_matter f).2 := by
  by_cases h : includedFile ig f = true
  · rw [processFile_included ig st f h]
  · rw [processFile_not_included ig st f (by simpa using h)]

/-! ### Behaviour of the whole collection fold -/

theorem cnt_tags_foldl (ig : Bool) (files : List FileInput) (st : CollectResult) (n : String) :
    cnt ((files.foldl (processFile ig) st).tags_counter) n
      = cnt st.tags_counter n + specTagCount ig files n := by
  induction files generalizing st with
  | nil => simp [specTagCount]
  | cons f rest ih =>
    rw [List.foldl_cons, ih (processFile ig st f)]
    by_cases h : includedFile ig f = true
    · rw [processFile_included ig st f h]
      unfold specTagCount
      rw [List.filter_cons_of_pos h, List.map_cons, List.flatten_cons, List.count_append]
      show cnt (counterUpdate st.tags_counter (fileTags f)) n + _ = _
      rw [cnt_counterUpdate]
      omega
    · rw [processFile_not_included ig st f (by simpa using h)]
      unfold specTagCount
      rw [List.filter_cons_of_neg (by simpa using h)]

theorem cnt_cats_foldl (ig : Bool) (files : List FileInput) (st : CollectResult) (n : String) :
    cnt ((files.foldl (processFile ig) st).cats_counter) n
      = cnt st.cats_counter n + specCatCount ig files n := by
  induction files generalizing st with
  | nil => simp [specCatCount]
  | cons f rest ih =>
    rw [List.foldl_cons, ih (processFile ig st f)]
    by_cases h : includedFile ig f = true
    · rw [processFile_included ig st f h]
      unfold specCatCount
      rw [List.filter_cons_of_pos h, List.map_cons, List.flatten_cons, List.count_append]
      show cnt (counterUpdate st.cats_counter (fileCats f)) n + _ = _
      rw [cnt_counterUpdate]
      omega
    · rw [processFile_not_included ig st f (by simpa using h)]
      unfold specCatCount
      rw [List.filter_cons_of_neg (by simpa using h)]

theorem len_tagfiles_foldl (ig : Bool) (files : List FileInput) (st : CollectResult)
    (n : String) :
    (lookupFiles ((files.foldl (processFile ig) st).tag_to_files) n).length
      = (lookupFiles st.tag_to_files n).length + specTagCount ig files n := by
  induction files generalizing st with
  | nil => simp [specTagCount]
  | cons f rest ih =>
    rw [List.foldl_cons, ih (processFile ig st f)]
    by_cases h : includedFile ig f = true
    · rw [processFile_included ig st f h]
      unfold specTagCount
      rw [List.filter_cons_of_pos h, List.map_cons, List.flatten_cons, List.count_append]
      show (lookupFiles (mapUpdate st.tag_to_files (fileTags f) f.path) n).length + _ = _
      rw [lookupFiles_mapUpdate, List.length_append, List.length_replicate]
      omega
    · rw [processFile_not_included ig st f (by simpa using h)]
      unfold specTagCount
      rw [List.filter_cons_of_neg (by simpa using h)]

theorem len_catfiles_foldl (ig : Bool) (files : List FileInput) (st : CollectResult)
    (n : String) :
    (lookupFiles ((files.foldl (processFile ig) st).cat_to_files) n).length
      = (lookupFiles st.cat_to_files n).length + specCatCount ig files n := by
  induction files generalizing st with
  | nil => simp [specCatCount]
  | cons f rest ih =>
    rw [List.foldl_cons, ih (processFile ig st f)]
    by_cases h : includedFile ig f = true
    · rw [processFile_included ig st f h]
      unfold specCatCount
      rw [List.filter_cons_of_pos h, List.map_cons, List.flatten_cons, List.count_append]
      show (lookupFiles (mapUpdate st.cat_to_files (fileCats f) f.path) n).length + _ = _
      rw [lookupFiles_mapUpdate, List.length_append, List.length_replicate]
      omega
    · rw [processFile_not_included ig st f (by simpa using h)]
      unfold specCatCount
      rw [List.filter_cons_of_neg (by simpa using h)]

theorem warnings_foldl (ig : Bool) (files : List FileInput) (st : CollectResult) :
    (files.foldl (processFile ig) st).warnings
      = st.warnings ++ (files.map fun f => (read_front_matter f).2).flatten := by
  induction files generalizing st with
  | nil => simp
  | cons f rest ih =>
    rw [List.foldl_cons, ih (processFile ig st f), processFile_warnings, List.map_cons,
      List.flatten_cons, List.append_assoc]

theorem sameCore_processFile {st st' : CollectResult} (h : sameCore st st') (ig : Bool)
    (f : FileInput) : sameCore (processFile ig st f) (processFile ig st' f) := by
  obtain ⟨h1, h2, h3, h4, h5⟩ := h
  by_cases hf : includedFile ig f = true
  · rw [processFile_included ig st f hf, processFile_included ig st' f hf]
    exact ⟨by rw [h1], by rw [h2], by rw [h3], by rw [h4], by rw [h5]⟩
  · rw [processFile_not_included ig st f (by simpa using hf),
      processFile_not_included ig st' f (by simpa using hf)]
    exact ⟨h1, h2, h3, h4, h5⟩

theorem sameCore_foldl (ig : Bool) (files : List FileInput) {st st' : CollectResult}
    (h : sameCore st st') :
    sameCore (files.foldl (processFile ig) st)
      ((files.filter parsedOk).foldl (processFile ig) st') := by
  induction files generalizing st st' with
  | nil => simpa using h
  | cons f rest ih =>
    by_cases hf : parsedOk f = true
    · rw [List.filter_cons_of_pos hf, List.foldl_cons, List.foldl_cons]
      exact ih (sameCore_processFile h ig f)
    · rw [List.filter_cons_of_neg (by simpa using hf), List.foldl_cons]
      have hnone : (read_front_matter f).1 = none := by
        unfold parsedOk at hf
        rcases ho : (read_front_matter f).1 with _ | d
        · rfl
        · rw [ho] at hf
          simp at hf
      rw [processFile_not_included ig st f (includedFile_of_not_parsed hnone ig)]
      exact ih ⟨h.1, h.2.1, h.2.2.1, h.2.2.2.1, h.2.2.2.2⟩

theorem lookupUsage_foldl_ne (ig : Bool) (files : List FileInput) (st : CollectResult)
    (p : String) (h : ∀ f ∈ files, f.path ≠ p) :
    lookupUsage ((files.foldl (processFile ig) st).file_usage) p
      = lookupUsage st.file_usage p := by
  induction files generalizing st with
  | nil => rfl
  | cons f rest ih =>
    rw [List.foldl_cons, ih _ fun x hx => h x (List.mem_cons_of_mem f hx)]
    by_cases hf : includedFile ig f = true
    · rw [processFile_included ig st f hf]
      exact lookupUsage_setUsage_ne _ _ _ _ fun hc =>
        h f (List.mem_cons_self f rest) hc.symm
    · rw [processFile_not_included ig st f (by simpa using hf)]

/-! ### Keys of the inverse mappings -/

theorem mem_keys_appendFile {m : FilesMap} {k p x : String}
    (h : x ∈ (appendFile m k p).map Prod.fst) : x ∈ m.map Prod.fst ∨ x = k := by
  induction m with
  | nil =>
    right
    simpa [appendFile] using h
  | cons kv rest ih =>
    simp only [appendFile] at h
    by_cases hk : kv.1 = k
    · rw [if_pos hk] at h
      simp only [List.map_cons, List.mem_cons] at h
      rcases h with h | h
      · left
        simp [h]
      · left
        simp only [List.map_cons, List.mem_cons]
        right
        exact h
    · rw [if_neg hk] at h
      simp only [List.map_cons, List.mem_cons] at h
      rcases h with h | h
      · left
        simp [h]
      · rcases ih h with h2 | h2
        · left
          simp only [List.map_cons, List.mem_cons]
          right
          exact h2
        · right
          exact h2

theorem nodup_keys_appendFile {m : FilesMap} (k p : String)
    (h : (m.map Prod.fst).Nodup) : ((appendFile m k p).map Prod.fst).Nodup := by
  induction m with
  | nil => simp [appendFile]
  | cons kv rest ih =>
    simp only [appendFile]
    by_cases hk : kv.1 = k
    · rw [if_pos hk]
      simpa using h
    · rw [if_neg hk]
      simp only [List.map_cons, List.nodup_cons] at h ⊢
      obtain ⟨h1, h2⟩ := h
      refine ⟨?_, ih h2⟩
      intro hmem
      rcases mem_keys_appendFile hmem with hm | hm
      · exact h1 hm
      · exact hk hm

theorem nodup_keys_mapUpdate {m : FilesMap} (ks : List String) (p : String)
    (h : (m.map Prod.fst).Nodup) : ((mapUpdate m ks p).map Prod.fst).Nodup := by
  induction ks generalizing m with
  | nil => exact h
  | cons k kt ih => exact ih (nodup_keys_appendFile k p h)

theorem nodup_tagkeys_foldl (ig : Bool) (files : List FileInput) (st : CollectResult)
    (h : ((st.tag_to_files).map Prod.fst).Nodup) :
    (((files.foldl (processFile ig) st).tag_to_files).map Prod.fst).Nodup := by
  induction files generalizing st with
  | nil => exact h
  | cons f rest ih =>
    rw [List.foldl_cons]
    apply ih
    by_cases hf : includedFile ig f = true
    · rw [processFile_included ig st f hf]
      exact nodup_keys_mapUpdate _ _ h
    · rw [processFile_not_included ig st f (by simpa using hf)]
      exact h

theorem nodup_catkeys_foldl (ig : Bool) (files : List FileInput) (st : CollectResult)
    (h : ((st.cat_to_files).map Prod.fst).Nodup) :
    (((files.foldl (processFile ig) st).cat_to_files).map Prod.fst).Nodup := by
  induction files generalizing st with
  | nil => exact h
  | cons f rest ih =>
    rw [List.foldl_cons]
    apply ih
    by_cases hf : includedFile ig f = true
    · rw [processFile_included ig st f hf]
      exact nodup_keys_mapUpdate _ _ h
    · rw [processFile_not_included ig st f (by simpa using hf)]
      exact h

theorem lookupFiles_eq_of_mem {m : FilesMap} {k : String} {v : List String}
    (hnd : (m.map Prod.fst).Nodup) (hmem : (k, v) ∈ m) : lookupFiles m k = v := by
  induction m with
  | nil => simp at hmem
  | cons kv rest ih =>
    simp only [List.map_cons, List.nodup_cons] at hnd
    rcases List.mem_cons.mp hmem with heq | hmem2
    · rw [← heq, lookupFiles_cons]
      simp
    · rw [lookupFiles_cons]
      have hne : ¬ kv.1 = k := by
        intro hc
        apply hnd.1
        rw [hc]
        exact List.mem_map_of_mem Prod.fst hmem2
      rw [if_neg hne]
      exact ih hnd.2 hmem2

theorem mem_of_lookupFiles {m : FilesMap} {k : String} (h : lookupFiles m k ≠ []) :
    (k, lookupFiles m k) ∈ m := by
  induction m with
  | nil => exact absurd rfl h
  | cons kv rest ih =>
    obtain ⟨k1, v1⟩ := kv
    rw [lookupFiles_cons] at h ⊢
    by_cases hk : k1 = k
    · subst hk
      rw [if_pos rfl] at h ⊢
      exact List.mem_cons_self _ _
    · rw [if_neg hk] at h ⊢
      exact List.mem_cons_of_mem _ (ih h)

/-! ### The singleton listing -/

theorem mem_singleton_rows {m : FilesMap} (hnd : (m.map Prod.fst).Nodup) (n : String) :
    (n ∈ (singleton_rows m).map Prod.fst) ↔ (lookupFiles m n).length = 1 := by
  unfold singleton_rows
  have hperm :=
    (List.perm_insertionSort (fun a b => alphaLe a b = true)
      ((m.filter fun kv => kv.2.length == 1).map fun kv => (kv.1, 1))).map Prod.fst
  rw [hperm.mem_iff]
  simp only [List.map_map, List.mem_map, Function.comp]
  constructor
  · rintro ⟨kv, hkv, hn⟩
    rw [List.mem_filter] at hkv
    obtain ⟨hm, hlen⟩ := hkv
    have hl : lookupFiles m n = kv.2 := by
      rw [← hn]
      exact lookupFiles_eq_of_mem hnd hm
    rw [hl]
    simpa using hlen
  · intro h
    have hne : lookupFiles m n ≠ [] := by
      intro hc
      rw [hc] at h
      simp at h
    refine ⟨(n, lookupFiles m n), ?_, rfl⟩
    rw [List.mem_filter]
    exact ⟨mem_of_lookupFiles hne, by simpa using h⟩

theorem pairwise_singleton_rows (m : FilesMap) :
    (singleton_rows m).Pairwise fun a b => strLe a.1 b.1 = true := by
  unfold singleton_rows
  haveI htot : IsTotal (String × Nat) (fun a b => alphaLe a b = true) :=
    ⟨fun a b => by
      rcases strLe_total a.1 b.1 with h | h
      · exact Or.inl h
      · exact Or.inr h⟩
  haveI htr : IsTrans (String × Nat) (fun a b => alphaLe a b = true) :=
    ⟨fun a b c => alphaLe_trans a b c⟩
  exact List.sorted_insertionSort (fun a b => alphaLe a b = true) _

/-! ### Claim theorems -/

/-- C1: after every collection run the global tag counter (and likewise the
category counter) maps each normalized name to the number of times it
occurs, with multiplicity, across the normalized tag (category) lists of
the files that were read and parsed successfully, had a non-empty
front-matter mapping, and were not excluded by the ignore-drafts option. -/
theorem collect_counter_spec (ig : Bool) (files : List FileInput) (n : String) :
    cnt (collect ig files).tags_counter n = specTagCount ig files n
    ∧ cnt (collect ig files).cats_counter n = specCatCount ig files n := by
  unfold collect
  constructor
  · rw [cnt_tags_foldl]
    simp [initResult, cnt_nil]
  · rw [cnt_cats_foldl]
    simp [initResult, cnt_nil]

/-- C8: after every collection run, the counter value of every name equals
the length of that name's list in the corresponding inverse mapping, and a
name has a positive count exactly when its inverse-mapping entry is
non-empty. -/
theorem counter_matches_inverse_mapping (ig : Bool) (files : List FileInput) (n : String) :
    cnt (collect ig files).tags_counter n
        = (lookupFiles (collect ig files).tag_to_files n).length
    ∧ cnt (collect ig files).cats_counter n
        = (lookupFiles (collect ig files).cat_to_files n).length
    ∧ (0 < cnt (collect ig files).tags_counter n
        ↔ lookupFiles (collect ig files).tag_to_files n ≠ [])
    ∧ (0 < cnt (collect ig files).cats_counter n
        ↔ lookupFiles (collect ig files).cat_to_files n ≠ []) := by
  have ht : cnt (collect ig files).tags_counter n
      = (lookupFiles (collect ig files).tag_to_files n).length := by
    unfold collect
    rw [cnt_tags_foldl, len_tagfiles_foldl]
    simp [initResult, cnt_nil, lookupFiles_nil]
  have hc : cnt (collect ig files).cats_counter n
      = (lookupFiles (collect ig files).cat_to_files n).length := by
    unfold collect
    rw [cnt_cats_foldl, len_catfiles_foldl]
    simp [initResult, cnt_nil, lookupFiles_nil]
  refine ⟨ht, hc, ?_, ?_⟩
  · rw [ht]
    exact List.length_pos
  · rw [hc]
    exact List.length_pos

/-- C2 counterexample: a file whose raw metadata lists the tag `dup` twice
gets a usage record whose own tag list contains `dup` twice, refuting the
at-most-one-occurrence claim. -/
theorem usage_record_dedup_counterexample :
    ¬ ((((lookupUsage (collect false [exDupFile]).file_usage "a.md").getD
        ⟨[], []⟩).tags.count "dup") ≤ 1) := by
  decide

/-- C2 amended: the usage record of every aggregated file stores exactly
the normalized tag and category lists produced by `coerce_list`, preserving
within-file duplicates (each of which also increments the global counter,
per C1). -/
theorem usage_record_stores_normalized_lists (ig : Bool) (files : List FileInput)
    (f : FileInput) (hf : f ∈ files) (hinc : includedFile ig f = true)
    (hnd : (files.map FileInput.path).Nodup) :
    lookupUsage (collect ig files).file_usage f.path = some ⟨fileTags f, fileCats f⟩ := by
  obtain ⟨l1, l2, rfl⟩ := List.append_of_mem hf
  unfold collect
  rw [List.foldl_append, List.foldl_cons]
  have hnotin : ∀ g ∈ l2, g.path ≠ f.path := by
    rw [List.map_append, List.map_cons] at hnd
    have h2 := List.Nodup.of_append_right hnd
    intro g hg hc
    exact (List.nodup_cons.mp h2).1 (hc ▸ List.mem_map_of_mem FileInput.path hg)
  rw [lookupUsage_foldl_ne ig l2 _ f.path hnotin]
  rw [processFile_included ig _ f hinc]
  exact lookupUsage_setUsage_self _ _ _

/-- Witness for the amended C2 at a concrete duplicated-tag file. -/
theorem usage_record_stores_normalized_lists_witness :
    lookupUsage (collect false [exDupFile]).file_usage "a.md"
      = some ⟨["dup", "dup"], []⟩ := by
  have h := usage_record_stores_normalized_lists false [exDupFile] exDupFile
    (List.mem_cons_self _ _) (by decide) (by decide)
  rw [show ("a.md" : String) = exDupFile.path from rfl, h]
  decide

/-- C4 counterexample: with one file that lists the tag `dup` twice, the
tag is used by exactly one content item yet is absent from the singleton
list (its inverse-mapping entry holds two copies of the path). -/
theorem singleton_used_once_counterexample :
    specUsedByFiles false [exDupFile] "dup" = 1
    ∧ "dup" ∉ (singleton_rows (collect false [exDupFile]).tag_to_files).map Prod.fst := by
  decide

/-- C4 amended: a name is in the singleton list exactly when its
inverse-mapping entry has length one, equivalently when its global counter
value (occurrences counted with multiplicity) is exactly one; the list is
ordered alphabetically.  The computation takes no minimum-count or top-N
inputs, so those filters cannot affect it. -/
theorem singleton_rows_spec (ig : Bool) (files : List FileInput) (n : String) :
    (n ∈ (singleton_rows (collect ig files).tag_to_files).map Prod.fst
      ↔ cnt (collect ig files).tags_counter n = 1)
    ∧ (n ∈ (singleton_rows (collect ig files).cat_to_files).map Prod.fst
      ↔ cnt (collect ig files).cats_counter n = 1)
    ∧ (singleton_rows (collect ig files).tag_to_files).Pairwise
        (fun a b => strLe a.1 b.1 = true)
    ∧ (singleton_rows (collect ig files).cat_to_files).Pairwise
        (fun a b => strLe a.1 b.1 = true) := by
  have hndt : (((collect ig files).tag_to_files).map Prod.fst).Nodup := by
    unfold collect
    exact nodup_tagkeys_foldl ig files initResult (by simp [initResult])
  have hndc : (((collect ig files).cat_to_files).map Prod.fst).Nodup := by
    unfold collect
    exact nodup_catkeys_foldl ig files initResult (by simp [initResult])
  have hlt : (lookupFiles (collect ig files).tag_to_files n).length
      = specTagCount ig files n := by
    unfold collect
    rw [len_tagfiles_foldl]
    simp [initResult, lookupFiles_nil]
  have hlc : (lookupFiles (collect ig files).cat_to_files n).length
      = specCatCount ig files n := by
    unfold collect
    rw [len_catfiles_foldl]
    simp [initResult, lookupFiles_nil]
  have hct : cnt (collect ig files).tags_counter n = specTagCount ig files n := by
    unfold collect
    rw [cnt_tags_foldl]
    simp [initResult, cnt_nil]
  have hcc : cnt (collect ig files).cats_counter n = specCatCount ig files n := by
    unfold collect
    rw [cnt_cats_foldl]
    simp [initResult, cnt_nil]
  refine ⟨?_, ?_, pairwise_singleton_rows _, pairwise_singleton_rows _⟩
  · rw [mem_singleton_rows hndt n, hlt, hct]
  · rw [mem_singleton_rows hndc n, hlc, hcc]

theorem coerce_list_vList (l : List Val) :
    coerce_list (Val.vList l) = l.filterMap coerce_elem := by
  cases l with
  | nil => rfl
  | cons a t =>
    unfold coerce_list
    rw [if_neg (by simp [truthy])]

theorem filterMap_coerce_filter (l : List Val) :
    l.filterMap coerce_elem = (l.filter Val.isStr).filterMap coerce_elem := by
  induction l with
  | nil => rfl
  | cons a t ih =>
    by_cases ha : a.isStr = true
    · rw [List.filter_cons_of_pos ha, List.filterMap_cons, List.filterMap_cons, ih]
    · rw [List.filter_cons_of_neg (by simpa using ha), List.filterMap_cons,
        coerce_elem_not_str (by simpa using ha)]
      exact ih

/-- C3: `sort_and_filter` keeps exactly the entries with count at least the
threshold; mode `count` orders by descending count breaking ties by
ascending name, mode `alpha` purely by ascending name; a positive top-N
truncates the ordered list to its first N entries and nothing else. -/
theorem sort_and_filter_spec (c : Counter) (mode : String) (mi top : Int) :
    (sort_and_filter c mode mi 0).Perm (c.filter fun kv => decide (mi ≤ (kv.2 : Int)))
    ∧ (mode = "alpha" →
        (sort_and_filter c mode mi top).Pairwise fun a b => strLe a.1 b.1 = true)
    ∧ (mode = "count" →
        (sort_and_filter c mode mi top).Pairwise fun a b =>
          b.2 < a.2 ∨ (a.2 = b.2 ∧ strLe a.1 b.1 = true))
    ∧ (0 < top → sort_and_filter c mode mi top
        = (sort_and_filter c mode mi 0).take top.toNat) := by
  haveI hat : IsTotal (String × Nat) (fun a b => alphaLe a b = true) :=
    ⟨fun a b => by
      rcases strLe_total a.1 b.1 with h | h
      · exact Or.inl h
      · exact Or.inr h⟩
  haveI hatr : IsTrans (String × Nat) (fun a b => alphaLe a b = true) :=
    ⟨fun a b c => alphaLe_trans a b c⟩
  haveI hct : IsTotal (String × Nat) (fun a b => countLe a b = true) :=
    ⟨fun a b => by
      cases hab : countLe a b with
      | true => exact Or.inl rfl
      | false =>
        right
        have h := countLe_total a b
        rw [hab] at h
        simpa using h⟩
  haveI hctr : IsTrans (String × Nat) (fun a b => countLe a b = true) :=
    ⟨fun a b c => countLe_trans a b c⟩
  have himp : ∀ {a b : String × Nat}, countLe a b = true →
      b.2 < a.2 ∨ (a.2 = b.2 ∧ strLe a.1 b.1 = true) := by
    intro a b h
    simpa [countLe, Bool.or_eq_true, Bool.and_eq_true, decide_eq_true_eq] using h
  refine ⟨?_, ?_, ?_, ?_⟩
  · simp only [sort_and_filter]
    rw [if_neg (show ¬ (0 : Int) < 0 by omega)]
    by_cases hm : mode = "alpha"
    · rw [if_pos hm]
      exact List.perm_insertionSort _ _
    · rw [if_neg hm]
      exact List.perm_insertionSort _ _
  · intro hm
    simp only [sort_and_filter]
    rw [if_pos hm]
    by_cases ht : 0 < top
    · rw [if_pos ht]
      exact List.Pairwise.sublist (List.take_sublist _ _)
        (List.sorted_insertionSort (fun a b => alphaLe a b = true) _)
    · rw [if_neg ht]
      exact List.sorted_insertionSort (fun a b => alphaLe a b = true) _
  · intro hm
    have hne : ¬ mode = "alpha" := by
      rw [hm]
      decide
    simp only [sort_and_filter]
    rw [if_neg hne]
    by_cases ht : 0 < top
    · rw [if_pos ht]
      exact List.Pairwise.imp himp (List.Pairwise.sublist (List.take_sublist _ _)
        (List.sorted_insertionSort (fun a b => countLe a b = true) _))
    · rw [if_neg ht]
      exact List.Pairwise.imp himp
        (List.sorted_insertionSort (fun a b => countLe a b = true) _)
  · intro ht
    simp only [sort_and_filter]
    rw [if_pos ht, if_neg (show ¬ (0 : Int) < 0 by omega)]

/-- Witness for C3: truncation to the top entry on a concrete counter. -/
theorem sort_and_filter_spec_witness :
    sort_and_filter [("a", 2), ("b", 1)] "count" 1 1
      = (sort_and_filter [("a", 2), ("b", 1)] "count" 1 0).take 1 :=
  (sort_and_filter_spec [("a", 2), ("b", 1)] "count" 1 1).2.2.2 (by omega)

/-- C5: a mapping view renders exactly the key sequence that the
filter/sort engine produces from the corresponding counter, and that key
sequence does not depend on the inverse mapping itself. -/
theorem mapping_view_keys (mode : String) (mi top : Int) (res : CollectResult) :
    (by_tag_view mode mi top res).map Prod.fst
        = (sort_and_filter res.tags_counter mode mi top).map Prod.fst
    ∧ (by_cat_view mode mi top res).map Prod.fst
        = (sort_and_filter res.cats_counter mode mi top).map Prod.fst
    ∧ ∀ m : FilesMap,
        (render_mapping_json (ordered_keys_from res.tags_counter mode mi top) m).map Prod.fst
          = (by_tag_view mode mi top res).map Prod.fst := by
  refine ⟨?_, ?_, fun m => ?_⟩ <;>
    simp [by_tag_view, by_cat_view, render_mapping_json, ordered_keys_from, List.map_map,
      Function.comp]

/-- C6: read and parse failures only add a warning; the aggregation
results of a run equal those over the successfully parsed files alone, the
warning log is exactly the concatenation of the per-file diagnostics, and
every failed file produces a non-empty diagnostic. -/
theorem failures_warn_and_are_skipped (ig : Bool) (files : List FileInput) :
    (collect ig files).tags_counter = (collect ig (files.filter parsedOk)).tags_counter
    ∧ (collect ig files).cats_counter = (collect ig (files.filter parsedOk)).cats_counter
    ∧ (collect ig files).file_usage = (collect ig (files.filter parsedOk)).file_usage
    ∧ (collect ig files).tag_to_files = (collect ig (files.filter parsedOk)).tag_to_files
    ∧ (collect ig files).cat_to_files = (collect ig (files.filter parsedOk)).cat_to_files
    ∧ (collect ig files).warnings = (files.map fun f => (read_front_matter f).2).flatten
    ∧ ∀ f ∈ files, (read_front_matter f).1 = none → (read_front_matter f).2 ≠ [] := by
  obtain ⟨e1, e2, e3, e4, e5⟩ :=
    @sameCore_foldl ig files initResult initResult ⟨rfl, rfl, rfl, rfl, rfl⟩
  refine ⟨e1, e2, e3, e4, e5, ?_, ?_⟩
  · show (files.foldl (processFile ig) initResult).warnings = _
    rw [warnings_foldl]
    simp [initResult]
  · intro f _ hn
    exact read_front_matter_none_warns f hn

/-- Witness for C6: a file with a failing read yields a warning. -/
theorem failures_warn_and_are_skipped_witness :
    (read_front_matter exBadReadFile).2 ≠ [] :=
  (failures_warn_and_are_skipped false [exBadReadFile]).2.2.2.2.2.2 exBadReadFile
    (List.mem_cons_self _ _) rfl

/-- C7: normalization is idempotent on strings and on already-normalized
lists, and is case-insensitive, sending `Go`, `go ` and `GO` to `go`. -/
theorem normalization_idempotent_case_insensitive :
    (∀ s : String, pyNorm (pyNorm s) = pyNorm s)
    ∧ (∀ v : Val, coerce_list (Val.vList ((coerce_list v).map Val.vStr)) = coerce_list v)
    ∧ pyNorm "Go" = "go" ∧ pyNorm "go " = "go" ∧ pyNorm "GO" = "go" :=
  ⟨pyNorm_idem, coerce_list_idem, by decide, by decide, by decide⟩

/-- C9: a file whose front-matter markers are present but whose block
parses to an empty document behaves exactly like a file without front
matter: `read_front_matter` returns the empty mapping and no diagnostics,
and the whole collection result is as if the file were absent. -/
theorem empty_block_treated_as_no_front_matter (ig : Bool) (fs1 fs2 : List FileInput)
    (f : FileInput) (lines : List String) (h1 : f.read = .ok lines)
    (h2 : ¬ (is_front_matter_yaml lines).1 = -1)
    (h3 : f.yaml = .ok none ∨ f.yaml = .ok (some ⟨[]⟩)) :
    read_front_matter f = (some ⟨[]⟩, [])
    ∧ collect ig (fs1 ++ f :: fs2) = collect ig (fs1 ++ fs2) := by
  have hrf : read_front_matter f = (some ⟨[]⟩, []) := by
    obtain ⟨p, r, y⟩ := f
    have h1r : r = Except.ok lines := h1
    subst h1r
    rcases h3 with h3 | h3
    · have h3y : y = Except.ok none := h3
      subst h3y
      rw [read_front_matter_parsed p lines none h2]
      rfl
    · have h3y : y = Except.ok (some ⟨[]⟩) := h3
      subst h3y
      rw [read_front_matter_parsed p lines (some ⟨[]⟩) h2]
      rfl
  have hinc : includedFile ig f = false := by
    unfold includedFile fileData
    rw [hrf]
    rfl
  have hskip : ∀ st : CollectResult, processFile ig st f = st := by
    intro st
    rw [processFile_not_included ig st f hinc, hrf]
    simp
  refine ⟨hrf, ?_⟩
  unfold collect
  rw [List.foldl_append, List.foldl_cons, hskip, List.foldl_append]

/-- Witness for C9: a concrete whitespace-only block contributes nothing. -/
theorem empty_block_treated_as_no_front_matter_witness :
    collect false [exEmptyBlockFile] = collect false [] :=
  (empty_block_treated_as_no_front_matter false [] [] exEmptyBlockFile
    ["---", "   ", "---", "body"] rfl (by decide) (Or.inl rfl)).2

/-- C10: inside a list value, each non-string element is dropped
individually while normalized string elements are kept, so a mixed list
never collapses to empty because of its non-string members; a top-level
value that is neither a string nor a list always normalizes to the empty
list. -/
theorem coerce_list_drops_nonstrings_individually :
    (∀ l : List Val, coerce_list (Val.vList l) = coerce_list (Val.vList (l.filter Val.isStr)))
    ∧ (∀ (l : List Val) (s : String), Val.vStr s ∈ l → pyNorm s ≠ "" →
        pyNorm s ∈ coerce_list (Val.vList l))
    ∧ (∀ v : Val, v.isStr = false → v.isList = false → coerce_list v = []) := by
  refine ⟨?_, ?_, ?_⟩
  · intro l
    rw [coerce_list_vList, coerce_list_vList, filterMap_coerce_filter]
  · intro l s hmem hne
    rw [coerce_list_vList, List.mem_filterMap]
    exact ⟨Val.vStr s, hmem, by simp [coerce_elem, hne]⟩
  · intro v h1 h2
    cases v with
    | vStr s => simp [Val.isStr] at h1
    | vList l => simp [Val.isList] at h2
    | vNull => rfl
    | vBool b => cases b <;> rfl
    | vInt n =>
      unfold coerce_list
      split
      · rfl
      · rfl

/-- Witness for C10: a concrete mixed list and a concrete integer field. -/
theorem coerce_list_drops_nonstrings_individually_witness :
    coerce_list (Val.vList [Val.vInt 3, Val.vStr "Go", Val.vBool true])
        = coerce_list (Val.vList [Val.vStr "Go"])
    ∧ pyNorm "Go" ∈ coerce_list (Val.vList [Val.vInt 3, Val.vStr "Go", Val.vBool true])
    ∧ coerce_list (Val.vInt 7) = [] := by
  refine ⟨?_, ?_, coerce_list_drops_nonstrings_individually.2.2 (Val.vInt 7) rfl rfl⟩
  · have h := coerce_list_drops_nonstrings_individually.1
      [Val.vInt 3, Val.vStr "Go", Val.vBool true]
    simpa [Val.isStr] using h
  · exact coerce_list_drops_nonstrings_individually.2.1 _ "Go" (by simp) (by decide)
